import Mathlib

/-!
Verification development for the xlsform2lstsv repository.

Part 1 models the expression transpiler (XPath subset → Expression Script).
The transpiler itself (`src/utils/xpathToExpressionScript.ts`) is not part of
the source tree made available here — only its integration tests are — so the
definitions in this part are modelled from the specification (spec.md §3–§4.5,
§7): a field-reference resolver, a paren/quote-aware call extractor, function
converters for `selected`/`not`/`if`/`current()` references, an operator
normalizer, and the fixed-order conversion pipeline.  Expressions are modelled
as `List Char`; the pipeline is a pure total function, matching the spec's
"permissive degradation, never raises" policy.

Part 2 (further below) models, directly from the Python source, the helper
functions of `src/tests/integration/test_helpers.py` that claims C8–C10 are
about: `parse_tsv_choices`, `verify_tsv_contains_text`,
`extract_languages_from_tsv`.
-/

/-- Modelled from the spec (§3 FieldRegistry): a read-only mapping from logical
field name to a sanitized target identifier. -/
abbrev FieldReg := List (List Char × List Char)

/-- Modelled from the spec (§3): exact, case-sensitive registry lookup. -/
def lookupReg : FieldReg → List Char → Option (List Char)
  | [], _ => none
  | (k, v) :: rest, n => if k = n then some v else lookupReg rest n

/-- Modelled from the spec (§4.1 failure policy): resolve a field name via the
registry; if no entry exists, pass the name through verbatim. -/
def resolveName (reg : FieldReg) (n : List Char) : List Char :=
  (lookupReg reg n).getD n

/-- The `current()`-rooted relative-reference marker of the source grammar
(the 13 characters of `current()/../`). -/
def curMarker : List Char := ['c', 'u', 'r', 'r', 'e', 'n', 't', '(', ')', '/', '.', '.', '/']

/-- Modelled from the spec (§4.1): strip the delimiters of a field-reference
token — `$\x7bname\x7d` loses its dollar/brace delimiters, a `current()`-rooted
relative path loses its root marker; anything else is returned unchanged. -/
def stripRefDelims (t : List Char) : List Char :=
  if (("$\x7b").data).isPrefixOf t then
    (if t.getLast? = some '}' then (t.drop 2).dropLast else t)
  else if curMarker.isPrefixOf t then t.drop 13
  else t

/-- Modelled from the spec (§4.1): the Field Reference Resolver — strip the
token's delimiters, then resolve the name through the registry (pass-through
on a missing entry). -/
def resolveRefToken (reg : FieldReg) (t : List Char) : List Char :=
  resolveName reg (stripRefDelims t)

/-- Modelled from the spec (§4.2): scan forward from just after an opening
paren, tracking paren depth and single/double quote state, until the matching
close paren; returns the enclosed text and the remainder, or `none` when the
parens are unbalanced. -/
def scanBal : Nat → Option Char → List Char → Option (List Char × List Char)
  | _, _, [] => none
  | d, some q, c :: r =>
    (scanBal d (if c = q then none else some q) r).map (fun p => (c :: p.1, p.2))
  | d, none, c :: r =>
    if c = ')' then
      (if d = 0 then some ([], r)
       else (scanBal (d - 1) none r).map (fun p => (c :: p.1, p.2)))
    else if c = '(' then (scanBal (d + 1) none r).map (fun p => (c :: p.1, p.2))
    else if c = '\'' ∨ c = '"' then (scanBal d (some c) r).map (fun p => (c :: p.1, p.2))
    else (scanBal d none r).map (fun p => (c :: p.1, p.2))

/-- Modelled from the spec (§4.2): split an argument list at top-level commas,
i.e. commas not nested inside parens or quoted literals. -/
def splitArgsGo : Nat → Option Char → List Char → List Char → List (List Char)
  | _, _, acc, [] => [acc.reverse]
  | d, some q, acc, c :: r => splitArgsGo d (if c = q then none else some q) (c :: acc) r
  | d, none, acc, c :: r =>
    if c = ',' ∧ d = 0 then acc.reverse :: splitArgsGo 0 none [] r
    else if c = '(' then splitArgsGo (d + 1) none (c :: acc) r
    else if c = ')' then splitArgsGo (d - 1) none (c :: acc) r
    else if c = '\'' ∨ c = '"' then splitArgsGo d (some c) (c :: acc) r
    else splitArgsGo d none (c :: acc) r

/-- Top-level comma split of a call's argument text (§4.2). -/
def splitArgs (s : List Char) : List (List Char) := splitArgsGo 0 none [] s

/-- Strip leading and trailing whitespace from an argument substring. -/
def trimBoth (l : List Char) : List Char :=
  ((l.dropWhile Char.isWhitespace).reverse.dropWhile Char.isWhitespace).reverse

/-- Helper reassembling a located call: prepend the scanned-over character to
the `pre` component of a `findNotIf` result. -/
def consFound (c : Char) :
    List Char × Bool × List Char × List Char → List Char × Bool × List Char × List Char
  | (pre, b, inner, post) => (c :: pre, b, inner, post)

/-- Modelled from the spec (§4.2, §4.5 step 1): locate the first extractable
`not(`/`if(` call.  Returns the text before the call, whether it is a `not`
call, the enclosed argument text and the remainder.  An occurrence whose
parens are unbalanced is skipped (left unextracted, §7). -/
def findNotIf : List Char → Option (List Char × Bool × List Char × List Char)
  | [] => none
  | c :: r =>
    if (("not(").data).isPrefixOf (c :: r) then
      match scanBal 0 none ((c :: r).drop 4) with
      | some (inner, post) => some ([], true, inner, post)
      | none => (findNotIf r).map (consFound c)
    else if (("if(").data).isPrefixOf (c :: r) then
      match scanBal 0 none ((c :: r).drop 3) with
      | some (inner, post) => some ([], false, inner, post)
      | none => (findNotIf r).map (consFound c)
    else (findNotIf r).map (consFound c)

/-- Helper like `consFound` for `findSel` results. -/
def consFound3 (c : Char) :
    List Char × List Char × List Char → List Char × List Char × List Char
  | (pre, inner, post) => (c :: pre, inner, post)

/-- Modelled from the spec (§4.2): locate the first extractable `selected(`
call; unbalanced occurrences are skipped (§7). -/
def findSel : List Char → Option (List Char × List Char × List Char)
  | [] => none
  | c :: r =>
    if (("selected(").data).isPrefixOf (c :: r) then
      match scanBal 0 none ((c :: r).drop 9) with
      | some (inner, post) => some ([], inner, post)
      | none => (findSel r).map (consFound3 c)
    else (findSel r).map (consFound3 c)

/-- Strip a matching pair of single or double quotes from a literal token;
a token that is not a quoted literal is returned unchanged. -/
def stripQuotes : List Char → List Char
  | '\'' :: r => if r.getLast? = some '\'' then r.dropLast else '\'' :: r
  | '"' :: r => if r.getLast? = some '"' then r.dropLast else '"' :: r
  | t => t

/-- Modelled from the spec (§4.3): the `selected` rewrite —
`selected(fieldRef, 'value')` becomes `(field == "value")`, the field resolved
via the Field Reference Resolver and the literal re-quoted to double quotes
regardless of the source quoting. -/
def selRewrite (reg : FieldReg) (a1 a2 : List Char) : List Char :=
  '(' :: (resolveRefToken reg (trimBoth a1) ++ (" == \"").data
    ++ stripQuotes (trimBoth a2) ++ ("\")").data)

/-- Modelled from the spec (§4.5 step 2): rewrite every extractable
`selected(...)` call left to right; a call without exactly two top-level
arguments is left as literal text (§7). -/
def selConv : Nat → FieldReg → List Char → List Char
  | 0, _, s => s
  | f + 1, reg, s =>
    match findSel s with
    | none => s
    | some (pre, inner, post) =>
      match splitArgs inner with
      | [a1, a2] => pre ++ selRewrite reg a1 a2 ++ selConv f reg post
      | _ => pre ++ (("selected(").data ++ inner ++ ')' :: selConv f reg post)

/-- Characters that may make up a bare field name. -/
def isNameChar (c : Char) : Bool := c.isAlphanum || c = '_'

/-- Modelled from the spec (§4.3 row 4, §4.5 step 3): resolve
`current()`-rooted relative references to the flat identifier space, exactly
as an absolute reference to the same field. -/
def resolveCurrentF : Nat → FieldReg → List Char → List Char
  | 0, _, s => s
  | _ + 1, _, [] => []
  | f + 1, reg, c :: r =>
    if curMarker.isPrefixOf (c :: r) then
      resolveName reg (((c :: r).drop 13).takeWhile isNameChar)
        ++ resolveCurrentF f reg (((c :: r).drop 13).dropWhile isNameChar)
    else c :: resolveCurrentF f reg r

/-- Scan to the first closing brace, returning the name before it and the
remainder after it; `none` when no closing brace exists (malformed reference,
left untouched per §7). -/
def takeToClose : List Char → Option (List Char × List Char)
  | [] => none
  | '}' :: r => some ([], r)
  | c :: r => (takeToClose r).map (fun p => (c :: p.1, p.2))

/-- Modelled from the spec (§4.5 step 3, §7): resolve remaining bare
`$\x7bname\x7d` field references; an unresolvable name is emitted with only its
delimiters stripped, a reference with no closing brace is left untouched. -/
def resolveDollarF : Nat → FieldReg → List Char → List Char
  | 0, _, s => s
  | _ + 1, _, [] => []
  | f + 1, reg, c :: r =>
    if (("$\x7b").data).isPrefixOf (c :: r) then
      match takeToClose ((c :: r).drop 2) with
      | some (nm, after) => resolveName reg nm ++ resolveDollarF f reg after
      | none => '$' :: '{' :: resolveDollarF f reg ((c :: r).drop 2)
    else c :: resolveDollarF f reg r

/-- Modelled from the spec (§4.4): rewrite the source equality operator `=` to
`==`, leaving `!=`, `<=`, `>=` (and an already-doubled `==`) unchanged. -/
def eqConv : List Char → List Char
  | [] => []
  | '!' :: '=' :: r => '!' :: '=' :: eqConv r
  | '<' :: '=' :: r => '<' :: '=' :: eqConv r
  | '>' :: '=' :: r => '>' :: '=' :: eqConv r
  | '=' :: '=' :: r => '=' :: '=' :: eqConv r
  | '=' :: r => '=' :: '=' :: eqConv r
  | c :: r => c :: eqConv r

/-- Decidable check that a string contains no bare `=` left for `eqConv` to
rewrite (every `=` is part of `!=`, `<=`, `>=` or `==`). -/
def bareEqFree : List Char → Bool
  | [] => true
  | '!' :: '=' :: r => bareEqFree r
  | '<' :: '=' :: r => bareEqFree r
  | '>' :: '=' :: r => bareEqFree r
  | '=' :: '=' :: r => bareEqFree r
  | '=' :: _ => false
  | _ :: r => bareEqFree r

/-- Whitespace-class agreement of two characters. -/
def sameClass (a b : Char) : Bool := a.isWhitespace == b.isWhitespace

/-- Split a string into maximal runs of whitespace / non-whitespace
characters. -/
def chunks : List Char → List (List Char)
  | [] => []
  | c :: r =>
    match chunks r with
    | [] => [[c]]
    | [] :: rest => [c] :: rest
    | (d :: ds) :: rest =>
      if sameClass c d then (c :: d :: ds) :: rest else [c] :: (d :: ds) :: rest

/-- Concatenate a chunk decomposition back into a string. -/
def joinL : List (List Char) → List Char
  | [] => []
  | c :: rest => c ++ joinL rest

/-- Whether a chunk is a (nonempty) whitespace run. -/
def isWsChunk : List Char → Bool
  | [] => false
  | c :: _ => c.isWhitespace

/-- Whether a token chunk is one of the bare word operators `and` / `or`. -/
def isAndOr (t : List Char) : Bool := t == ("and").data || t == ("or").data

/-- The canonical two-space margin of the Operator Normalizer (§4.4). -/
def twoSp : List Char := [' ', ' ']

/-- Whether the chunk list starts with an `and`/`or` token that has a
following chunk (so the operator is flanked on both sides). -/
def rightActiveIn : List (List Char) → Bool
  | d :: rest2 => !isWsChunk d && isAndOr d && !rest2.isEmpty
  | [] => false

/-- Modelled from the spec (§4.4): enforce the two-space margin around every
whitespace-flanked bare `and`/`or` word operator.  `leftActive` records
whether the previous chunk was such an operator, `hasPrev` whether a previous
chunk exists at all. -/
def normGapsGo : Bool → Bool → List (List Char) → List (List Char)
  | _, _, [] => []
  | leftActive, hasPrev, c :: rest =>
    if isWsChunk c then
      (if leftActive || rightActiveIn rest then twoSp else c) :: normGapsGo false true rest
    else
      c :: normGapsGo (isAndOr c && hasPrev) true rest

/-- Decidable check that every whitespace gap flanking an internal `and`/`or`
word operator is exactly the canonical two spaces. -/
def gapsOKGo : Bool → Bool → List (List Char) → Bool
  | _, _, [] => true
  | leftActive, hasPrev, c :: rest =>
    if isWsChunk c then
      (!(leftActive || rightActiveIn rest) || c == twoSp) && gapsOKGo false true rest
    else gapsOKGo (isAndOr c && hasPrev) true rest

/-- Well-formedness of a single chunk: nonempty, all characters of one
whitespace class. -/
def chunkOK : List Char → Bool
  | [] => false
  | c :: r => r.all (fun d => sameClass c d)

/-- Well-formedness of a chunk decomposition: every chunk well formed,
adjacent chunks of different whitespace classes. -/
def altOK : List (List Char) → Bool
  | [] => true
  | [c] => chunkOK c
  | c :: d :: rest => chunkOK c && !(isWsChunk c == isWsChunk d) && altOK (d :: rest)

/-- Modelled from the spec (§4.4): the boolean-operator spacing pass. -/
def boolNormStr (s : List Char) : List Char := joinL (normGapsGo false false (chunks s))

/-- Canonical-spacing check at the string level. -/
def gapsOKStr (s : List Char) : Bool := gapsOKGo false false (chunks s)

/-- Modelled from the spec (§4.5 step 1): recursively convert and replace all
`not(...)` and `if(...)` calls. `conv` converts the (strictly shorter)
argument text; `not` keeps its single argument whole, `if` splits its
arguments at top-level commas and converts each independently (§4.3). -/
def convNotIfGen (conv : List Char → List Char) : Nat → List Char → List Char
  | 0, s => s
  | f + 1, s =>
    match findNotIf s with
    | none => s
    | some (pre, isN, inner, post) =>
      pre ++ ((if isN then ("not").data else ("if").data)
        ++ '(' :: ((if isN then conv inner
            else List.intercalate ((", ").data) ((splitArgs inner).map (fun a => conv (trimBoth a))))
          ++ ')' :: convNotIfGen conv f post))

/-- Modelled from the spec (§4.5): the Conversion Pipeline — (1) convert
`not`/`if` calls with recursively converted arguments, (2) convert
`selected(...)` calls, (3) resolve relative and bare field references,
(4) run the operator normalizer (equality, then boolean spacing).  The fuel
argument bounds the recursion depth into nested call arguments. -/
def xpathToExprF : Nat → FieldReg → List Char → List Char
  | 0, _, s => s
  | f + 1, reg, s =>
    let s1 := convNotIfGen (xpathToExprF f reg) (s.length + 1) s
    let s2 := selConv (s1.length + 1) reg s1
    let s2c := resolveCurrentF (s2.length + 1) reg s2
    let s3 := resolveDollarF (s2c.length + 1) reg s2c
    boolNormStr (eqConv s3)

/-- Modelled from the spec (§2, §4.5): the transpiler's entry point — a pure
total function from expression string and read-only field registry to the
converted expression string. -/
def xpathToExpressionScript (reg : FieldReg) (s : List Char) : List Char :=
  xpathToExprF (s.length + 1) reg s

/-!
Part 2: models of the helpers in `src/tests/integration/test_helpers.py`.
These are translated from the Python source; file access (`read_tsv_content`)
is modelled by passing the file's content string directly.
-/

/-- Python `str.split(sep)` for a single-character separator: split at every
occurrence, keeping empty pieces (so the result is never empty). -/
def splitOnChar (sep : Char) : List Char → List (List Char)
  | [] => [[]]
  | c :: r =>
    if c = sep then [] :: splitOnChar sep r
    else
      match splitOnChar sep r with
      | [] => [[c]]
      | h :: t => (c :: h) :: t

/-- Python `content.split('\n')` (`test_helpers.py` passim). -/
def tsvLines (content : List Char) : List (List Char) := splitOnChar '\n' content

/-- Python `line.split('\t')`. -/
def rowParts (line : List Char) : List (List Char) := splitOnChar '\t' line

/-- Language code extracted by the multilingual-detection loop of
`parse_tsv_choices` (`test_helpers.py:185-193`): lines passing
`(line.startswith('S') or line.startswith('SL')) and len(parts) >= 7`
contribute `parts[6].strip()` when it has exactly 2 characters. -/
def slLineLang (line : List Char) : Option (List Char) :=
  if ((("S").data).isPrefixOf line || (("SL").data).isPrefixOf line)
      && (rowParts line).length ≥ 7 then
    (if (trimBoth ((rowParts line).getD 6 [])).length = 2 then
      some (trimBoth ((rowParts line).getD 6 []))
     else none)
  else none

/-- The `is_multilingual` flag of `parse_tsv_choices` (`test_helpers.py:182-193`):
set when more than one distinct 2-character code has been collected (the
Python loop breaks as soon as the set's size exceeds 1, which does not change
the final flag). -/
def isMultilingual (content : List Char) : Bool :=
  (((tsvLines content).filterMap slLineLang).dedup).length > 1

/-- Mutable state of the main loop of `parse_tsv_choices`
(`test_helpers.py:179-230`): the current question, the per-question counts
dict and the per-question answer-code sets. -/
structure ChoiceState where
  curQ : Option (List Char)
  counts : List Char → Option Nat
  codes : List Char → List (List Char)

/-- Python `choices_by_question[current_question] += 1`. -/
def bumpCount (q : List Char) (cn : List Char → Option Nat) : List Char → Option Nat :=
  fun k => if k = q then some ((cn q).getD 0 + 1) else cn k

/-- One iteration of the main loop of `parse_tsv_choices`
(`test_helpers.py:198-230`): blank lines and lines with fewer than 3
tab-separated parts are skipped; a `Q` row resets the current question's
count and code set; an `A` row increments (deduplicating codes per question
when multilingual); an `SQ` row always increments.  The `and current_question`
guards are Python truthiness tests, so an empty question name disables
counting. -/
def procLine (multi : Bool) (st : ChoiceState) (line : List Char) : ChoiceState :=
  if trimBoth line = [] then st
  else if (rowParts line).length < 3 then st
  else
    let rn := (rowParts line).getD 2 []
    if (rowParts line).getD 0 [] = ("Q").data then
      { curQ := some rn,
        counts := fun k => if k = rn then some 0 else st.counts k,
        codes := fun k => if k = rn then [] else st.codes k }
    else if (rowParts line).getD 0 [] = ("A").data then
      match st.curQ with
      | some q =>
        if q = [] then st
        else if multi then
          (if rn ∈ st.codes q then st
           else { st with
                  counts := bumpCount q st.counts,
                  codes := fun k => if k = q then rn :: st.codes q else st.codes k })
        else { st with counts := bumpCount q st.counts }
      | none => st
    else if (rowParts line).getD 0 [] = ("SQ").data then
      match st.curQ with
      | some q => if q = [] then st else { st with counts := bumpCount q st.counts }
      | none => st
    else st

/-- The main loop of `parse_tsv_choices` over all lines. -/
def procLines (multi : Bool) : ChoiceState → List (List Char) → ChoiceState
  | st, [] => st
  | st, l :: ls => procLines multi (procLine multi st l) ls

/-- Initial loop state of `parse_tsv_choices`: no current question, empty
dicts. -/
def initChoiceState : ChoiceState :=
  { curQ := none, counts := fun _ => none, codes := fun _ => [] }

/-- Model of `parse_tsv_choices` (`test_helpers.py:163-232`), with the file's
content passed directly; the returned map is the `choices_by_question` dict
(`none` for a name never used as a question). -/
def parse_tsv_choices (content : List Char) : List Char → Option Nat :=
  (procLines (isMultilingual content) initChoiceState (tsvLines content)).counts

/-- The lines `parse_tsv_choices`'s main loop actually processes: non-blank
with at least 3 tab-separated parts, kept as their part lists. -/
def effRows (ls : List (List Char)) : List (List (List Char)) :=
  ls.filterMap (fun l =>
    if trimBoth l ≠ [] ∧ (rowParts l).length ≥ 3 then some (rowParts l) else none)

/-- Effective rows of a TSV content. -/
def effLines (content : List Char) : List (List (List Char)) := effRows (tsvLines content)

/-- Whether an effective row is a question row (first field exactly `Q`). -/
def isQRow (p : List (List Char)) : Bool := p.getD 0 [] == ("Q").data

/-- The rows strictly between the last `Q` row named `q` and the next `Q` row
(of any name); `none` when no `Q` row is named `q`. -/
def lastSegOf (q : List Char) : List (List (List Char)) → Option (List (List (List Char)))
  | [] => none
  | p :: rest =>
    if isQRow p && p.getD 2 [] == q then
      (match lastSegOf q rest with
       | some s => some s
       | none => some (rest.takeWhile (fun r => !isQRow r)))
    else lastSegOf q rest

/-- The answer codes of the `A` rows of a row segment, in order. -/
def aCodes (seg : List (List (List Char))) : List (List Char) :=
  (seg.filter (fun p => p.getD 0 [] == ("A").data)).map (fun p => p.getD 2 [])

/-- The number of `SQ` rows of a row segment. -/
def sqCount (seg : List (List (List Char))) : Nat :=
  (seg.filter (fun p => p.getD 0 [] == ("SQ").data)).length

/-- The choice count `parse_tsv_choices` is meant to compute for one
question's row segment: distinct answer codes (multilingual) or all answer
rows (single-language), plus all subquestion rows. -/
def segChoiceCount (multi : Bool) (seg : List (List (List Char))) : Nat :=
  (if multi then (aCodes seg).dedup.length else (aCodes seg).length) + sqCount seg

/-- Distinct-count of a code list relative to an already-seen set, mirroring
the per-question code-set accumulation of `parse_tsv_choices`. -/
def dcount (cs : List (List Char)) : List (List Char) → Nat
  | [] => 0
  | a :: t => if a ∈ cs then dcount cs t else dcount (a :: cs) t + 1

/-- Continuation of the counting loop over a question's remaining segment
rows, from a given count and seen-code set. -/
def contFold (multi : Bool) :
    Option Nat → List (List Char) → List (List (List Char)) → Option Nat
  | cn, _, [] => cn
  | cn, cs, p :: rest =>
    if p.getD 0 [] = ("A").data then
      (if multi then
        (if p.getD 2 [] ∈ cs then contFold multi cn cs rest
         else contFold multi (some (cn.getD 0 + 1)) (p.getD 2 [] :: cs) rest)
       else contFold multi (some (cn.getD 0 + 1)) cs rest)
    else if p.getD 0 [] = ("SQ").data then contFold multi (some (cn.getD 0 + 1)) cs rest
    else contFold multi cn cs rest

/-- The leading rows of a segment list up to the first `Q` row. -/
def leadSeg (es : List (List (List Char))) : List (List (List Char)) :=
  es.takeWhile (fun r => !isQRow r)

/-- Python substring test `t in content`. -/
def pyContains (content t : List Char) : Bool := decide (t <:+: content)

/-- Model of `verify_tsv_contains_text` (`test_helpers.py:501-520`), with the
file's content passed directly: collect the expected strings that are not
substrings of the content and raise (return an error) exactly when that list
is nonempty. -/
def verify_tsv_contains_text (content : List Char) (expected : List (List Char)) :
    Except (List Char) Unit :=
  if expected.filter (fun t => !pyContains content t) ≠ [] then
    Except.error (("TSV file missing expected texts").data)
  else Except.ok ()

/-- Language code one line contributes in `extract_languages_from_tsv`
(`test_helpers.py:561-576`): lines starting with `SL` with at least 3 parts
contribute their stripped last part, otherwise lines starting with `Q` with
at least 7 parts contribute their stripped 7th part — in both cases only
when nonempty with exactly 2 characters. -/
def lineLang (line : List Char) : Option (List Char) :=
  if (("SL").data).isPrefixOf line then
    (if (rowParts line).length ≥ 3 then
      (if trimBoth ((rowParts line).getLast?.getD []) ≠ []
          ∧ (trimBoth ((rowParts line).getLast?.getD [])).length = 2 then
        some (trimBoth ((rowParts line).getLast?.getD []))
       else none)
     else none)
  else if (("Q").data).isPrefixOf line then
    (if (rowParts line).length ≥ 7 then
      (if trimBoth ((rowParts line).getD 6 []) ≠ []
          ∧ (trimBoth ((rowParts line).getD 6 [])).length = 2 then
        some (trimBoth ((rowParts line).getD 6 []))
       else none)
     else none)
  else none

/-- Model of `extract_languages_from_tsv` (`test_helpers.py:549-578`), with
the file's content passed directly: Python's `sorted(list(languages))` of the
collected set is the ascending sort of the duplicate-free code list. -/
def extract_languages_from_tsv (content : List Char) : List (List Char) :=
  List.insertionSort (· ≤ ·) ((tsvLines content).filterMap lineLang).dedup

/-- Claim C10's provenance reading with `SL rows` / `Q rows` taken as rows
whose first tab-separated field is exactly `SL` / `Q`. -/
def strictRowSource (content : List Char) (x : List Char) : Bool :=
  (tsvLines content).any (fun l =>
    ((rowParts l).getD 0 [] == ("SL").data && (rowParts l).length ≥ 3
      && trimBoth ((rowParts l).getLast?.getD []) == x)
    || ((rowParts l).getD 0 [] == ("Q").data && (rowParts l).length ≥ 7
      && trimBoth ((rowParts l).getD 6 []) == x))

/-- Provenance as the code implements it: lines starting with `SL` (last
column) or else starting with `Q` (7th column). -/
def lineSource (content : List Char) (x : List Char) : Bool :=
  (tsvLines content).any (fun l =>
    ((("SL").data).isPrefixOf l && (rowParts l).length ≥ 3
      && trimBoth ((rowParts l).getLast?.getD []) == x)
    || (!(("SL").data).isPrefixOf l && (("Q").data).isPrefixOf l
      && (rowParts l).length ≥ 7 && trimBoth ((rowParts l).getD 6 []) == x))

/-!
Lemmas.  First: each pipeline pass is the identity on strings free of the
syntax it rewrites (the basis of claim C2's amended statement), then the
chunk/normalizer theory for the boolean-spacing pass, then the invariant
relating `parse_tsv_choices` to its per-segment specification.
-/

theorem infix_cons_mono {l r : List Char} (c : Char) (h : l <:+: r) :
    l <:+: c :: r := by
  obtain ⟨s, t, hst⟩ := h
  exact ⟨c :: s, t, by rw [← hst]; rfl⟩

theorem isPrefixOf_eq_false_of_not_infix {p s : List Char} (h : ¬ p <:+: s) :
    p.isPrefixOf s = false := by
  by_contra hc
  exact h ((List.isPrefixOf_iff_prefix.mp (Bool.of_not_eq_false hc)).isInfix)

theorem findNotIf_eq_none {s : List Char} (h1 : ¬ (("not(").data <:+: s))
    (h2 : ¬ (("if(").data <:+: s)) : findNotIf s = none := by
  induction s with
  | nil => rfl
  | cons c r ih =>
    simp only [findNotIf, isPrefixOf_eq_false_of_not_infix h1,
      isPrefixOf_eq_false_of_not_infix h2, Bool.false_eq_true, if_false,
      ih (fun hi => h1 (infix_cons_mono c hi)) (fun hi => h2 (infix_cons_mono c hi)),
      Option.map_none']

theorem convNotIfGen_id (conv : List Char → List Char) (f : Nat) {s : List Char}
    (h1 : ¬ (("not(").data <:+: s)) (h2 : ¬ (("if(").data <:+: s)) :
    convNotIfGen conv f s = s := by
  cases f with
  | zero => rfl
  | succ f => simp only [convNotIfGen, findNotIf_eq_none h1 h2]

theorem findSel_eq_none {s : List Char} (h : ¬ (("selected(").data <:+: s)) :
    findSel s = none := by
  induction s with
  | nil => rfl
  | cons c r ih =>
    simp only [findSel, isPrefixOf_eq_false_of_not_infix h, Bool.false_eq_true, if_false,
      ih (fun hi => h (infix_cons_mono c hi)), Option.map_none']

theorem selConv_id (f : Nat) (reg : FieldReg) {s : List Char}
    (h : ¬ (("selected(").data <:+: s)) : selConv f reg s = s := by
  cases f with
  | zero => rfl
  | succ f => simp only [selConv, findSel_eq_none h]

theorem resolveCurrentF_id (f : Nat) (reg : FieldReg) :
    ∀ {s : List Char}, ¬ (curMarker <:+: s) → resolveCurrentF f reg s = s := by
  induction f with
  | zero => intro s _; rfl
  | succ f ih =>
    intro s h
    cases s with
    | nil => rfl
    | cons c r =>
      simp only [resolveCurrentF, isPrefixOf_eq_false_of_not_infix h, Bool.false_eq_true,
        if_false, ih (fun hi => h (infix_cons_mono c hi))]

theorem resolveDollarF_id (f : Nat) (reg : FieldReg) :
    ∀ {s : List Char}, ¬ ((("$\x7b").data) <:+: s) → resolveDollarF f reg s = s := by
  induction f with
  | zero => intro s _; rfl
  | succ f ih =>
    intro s h
    cases s with
    | nil => rfl
    | cons c r =>
      simp only [resolveDollarF, isPrefixOf_eq_false_of_not_infix h, Bool.false_eq_true,
        if_false, ih (fun hi => h (infix_cons_mono c hi))]

theorem eqConv_id_of_bareEqFree {s : List Char} (h : bareEqFree s = true) :
    eqConv s = s := by
  induction s using eqConv.induct <;> simp_all [eqConv, bareEqFree]

theorem altOK_cons2 (x y : List Char) (t : List (List Char)) :
    altOK (x :: y :: t) = (chunkOK x && !(isWsChunk x == isWsChunk y) && altOK (y :: t)) := rfl

theorem chunks_head (e : Char) (t : List Char) :
    ∃ ds rest, chunks (e :: t) = (e :: ds) :: rest := by
  rw [chunks]
  rcases chunks t with _ | ⟨ch, r⟩
  · exact ⟨[], [], rfl⟩
  · rcases ch with _ | ⟨d, ds⟩
    · exact ⟨[], r, rfl⟩
    · by_cases h : sameClass e d
      · exact ⟨d :: ds, r, by simp [h]⟩
      · exact ⟨[], (d :: ds) :: r, by simp [h]⟩

theorem joinL_chunks (s : List Char) : joinL (chunks s) = s := by
  induction s with
  | nil => rfl
  | cons c r ih =>
    rw [chunks]
    rcases h : chunks r with _ | ⟨ch, t⟩
    · rw [h] at ih
      simp only [joinL] at ih ⊢
      simp [← ih]
    · rcases ch with _ | ⟨d, ds⟩
      · rw [h] at ih
        simp only [joinL] at ih ⊢
        simpa using ih
      · rw [h] at ih
        simp only [joinL] at ih ⊢
        by_cases hc : sameClass c d <;> simp [hc, joinL, ih]

theorem sameClass_trans {a b x : Char} (h1 : sameClass a b = true)
    (h2 : sameClass b x = true) : sameClass a x = true := by
  simp only [sameClass, beq_iff_eq] at *
  exact h1.trans h2

theorem sameClass_symm (a b : Char) : sameClass a b = sameClass b a := by
  simp [sameClass, beq_iff_eq, eq_comm]

theorem chunkOK_cons_of {c d : Char} {ds : List Char} (hc : sameClass c d = true)
    (h : chunkOK (d :: ds) = true) : chunkOK (c :: d :: ds) = true := by
  simp only [chunkOK, List.all_cons, List.all_eq_true, Bool.and_eq_true] at *
  exact ⟨hc, fun x hx => sameClass_trans hc (h x hx)⟩

theorem chunks_run_append (a : Char) (as t : List Char)
    (hrun : as.all (fun d => sameClass a d) = true)
    (ht : t = [] ∨ ∃ e t', t = e :: t' ∧ sameClass a e = false) :
    chunks (a :: as ++ t) = (a :: as) :: chunks t := by
  induction as generalizing a with
  | nil =>
    rcases ht with rfl | ⟨e, t', rfl, he⟩
    · rfl
    · obtain ⟨ds, rest, hh⟩ := chunks_head e t'
      show chunks (a :: e :: t') = [a] :: chunks (e :: t')
      rw [chunks, hh]
      simp [he]
  | cons b as' ih =>
    simp only [List.all_cons, Bool.and_eq_true] at hrun
    obtain ⟨hab, hall⟩ := hrun
    have hall' : as'.all (fun d => sameClass b d) = true := by
      simp only [List.all_eq_true] at hall ⊢
      intro x hx
      exact sameClass_trans (sameClass_symm a b ▸ hab) (hall x hx)
    have ht' : t = [] ∨ ∃ e t', t = e :: t' ∧ sameClass b e = false := by
      rcases ht with rfl | ⟨e, t', rfl, he⟩
      · exact Or.inl rfl
      · refine Or.inr ⟨e, t', rfl, ?_⟩
        by_contra hbe
        exact absurd (sameClass_trans hab (Bool.of_not_eq_false hbe)) (by simp [he])
    have hrec := ih b hall' ht'
    show chunks (a :: (b :: as' ++ t)) = (a :: b :: as') :: chunks t
    rw [chunks, hrec]
    simp [hab]

theorem altOK_chunks (s : List Char) : altOK (chunks s) = true := by
  induction s with
  | nil => rfl
  | cons c r ih =>
    rw [chunks]
    rcases h : chunks r with _ | ⟨ch, t⟩
    · simp [altOK, chunkOK]
    · rcases ch with _ | ⟨d, ds⟩
      · rw [h] at ih
        exfalso
        cases t <;> simp [altOK, chunkOK] at ih
      · rw [h] at ih
        by_cases hc : sameClass c d = true
        · simp only [hc, if_true]
          cases t with
          | nil =>
            simp only [altOK] at ih ⊢
            exact chunkOK_cons_of hc ih
          | cons e t' =>
            rw [altOK_cons2] at ih ⊢
            simp only [Bool.and_eq_true] at ih ⊢
            refine ⟨⟨chunkOK_cons_of hc ih.1.1, ?_⟩, ih.2⟩
            have : isWsChunk (c :: d :: ds) = isWsChunk (d :: ds) := by
              simp only [isWsChunk]
              simpa [sameClass, beq_iff_eq] using hc
            rw [this]
            exact ih.1.2
        · simp only [Bool.not_eq_true] at hc
          simp only [hc, Bool.false_eq_true, if_false]
          rw [altOK_cons2]
          simp only [Bool.and_eq_true]
          refine ⟨⟨by simp [chunkOK], ?_⟩, ih⟩
          simp only [isWsChunk]
          simpa [sameClass] using hc

theorem altOK_tail {c : List Char} {t : List (List Char)} (h : altOK (c :: t) = true) :
    altOK t = true := by
  cases t with
  | nil => rfl
  | cons d t' =>
    rw [altOK_cons2] at h
    simp only [Bool.and_eq_true] at h
    exact h.2

theorem altOK_chunkOK {c : List Char} {t : List (List Char)} (h : altOK (c :: t) = true) :
    chunkOK c = true := by
  cases t with
  | nil => exact h
  | cons d t' =>
    rw [altOK_cons2] at h
    simp only [Bool.and_eq_true] at h
    exact h.1.1

theorem chunks_joinL : ∀ cs : List (List Char), altOK cs = true → chunks (joinL cs) = cs := by
  intro cs
  induction cs with
  | nil => intro _; rfl
  | cons c t ih =>
    intro h
    rcases c with _ | ⟨a, as⟩
    · exact absurd (altOK_chunkOK h) (by simp [chunkOK])
    · have hok := altOK_chunkOK h
      simp only [chunkOK] at hok
      have hside : joinL t = [] ∨ ∃ e t', joinL t = e :: t' ∧ sameClass a e = false := by
        cases t with
        | nil => exact Or.inl rfl
        | cons c2 t2 =>
          rcases c2 with _ | ⟨e, es⟩
          · exact absurd (altOK_chunkOK (altOK_tail h)) (by simp [chunkOK])
          · refine Or.inr ⟨e, es ++ joinL t2, by simp [joinL], ?_⟩
            rw [altOK_cons2] at h
            simp only [Bool.and_eq_true] at h
            have := h.1.2
            simp only [isWsChunk] at this
            simpa [sameClass] using this
      show chunks ((a :: as) ++ joinL t) = (a :: as) :: t
      rw [chunks_run_append a as _ hok hside, ih (altOK_tail h)]

theorem isWsChunk_twoSp : isWsChunk twoSp = true := by decide

theorem chunkOK_twoSp : chunkOK twoSp = true := by decide

theorem normGapsGo_cons (la hp : Bool) (c : List Char) (rest : List (List Char)) :
    normGapsGo la hp (c :: rest) =
      (if isWsChunk c then (if la || rightActiveIn rest then twoSp else c) else c)
        :: normGapsGo (if isWsChunk c then false else (isAndOr c && hp)) true rest := by
  rw [normGapsGo]
  by_cases hc : isWsChunk c = true <;> simp [hc]

theorem normGapsGo_isEmpty (la hp : Bool) (cs : List (List Char)) :
    (normGapsGo la hp cs).isEmpty = cs.isEmpty := by
  cases cs with
  | nil => rfl
  | cons c r => rw [normGapsGo_cons]; rfl

theorem isWsChunk_normHead (la : Bool) (c : List Char) (rest : List (List Char)) :
    isWsChunk (if isWsChunk c then (if la || rightActiveIn rest then twoSp else c) else c)
      = isWsChunk c := by
  by_cases h1 : isWsChunk c = true <;> by_cases h2 : (la || rightActiveIn rest) = true <;>
    simp [h1, h2, isWsChunk_twoSp]

theorem chunkOK_normHead (la : Bool) (c : List Char) (rest : List (List Char))
    (hok : chunkOK c = true) :
    chunkOK (if isWsChunk c then (if la || rightActiveIn rest then twoSp else c) else c)
      = true := by
  by_cases h1 : isWsChunk c = true <;> by_cases h2 : (la || rightActiveIn rest) = true <;>
    simp [h1, h2, chunkOK_twoSp, hok]

theorem rightActiveIn_cons (x : List Char) (xs : List (List Char)) :
    rightActiveIn (x :: xs) = (!isWsChunk x && isAndOr x && !xs.isEmpty) := rfl

theorem rightActiveIn_normGapsGo (la hp : Bool) (cs : List (List Char)) :
    rightActiveIn (normGapsGo la hp cs) = rightActiveIn cs := by
  cases cs with
  | nil => rfl
  | cons d rest =>
    rw [normGapsGo_cons, rightActiveIn_cons, rightActiveIn_cons,
      isWsChunk_normHead, normGapsGo_isEmpty]
    by_cases hd : isWsChunk d = true
    · simp [hd]
    · simp only [Bool.not_eq_true] at hd
      simp [hd]

theorem gapsOKGo_cons (la hp : Bool) (c : List Char) (rest : List (List Char)) :
    gapsOKGo la hp (c :: rest) =
      if isWsChunk c then
        ((!(la || rightActiveIn rest) || c == twoSp) && gapsOKGo false true rest)
      else gapsOKGo (isAndOr c && hp) true rest := by
  rw [gapsOKGo]

theorem gapsOK_normGapsGo (cs : List (List Char)) :
    ∀ la hp, gapsOKGo la hp (normGapsGo la hp cs) = true := by
  induction cs with
  | nil => intro _ _; rfl
  | cons c rest ih =>
    intro la hp
    rw [normGapsGo_cons, gapsOKGo_cons, isWsChunk_normHead]
    by_cases hc : isWsChunk c = true
    · simp only [hc, if_true, rightActiveIn_normGapsGo, Bool.and_eq_true]
      refine ⟨?_, ih false true⟩
      by_cases h : (la || rightActiveIn rest) = true
      · simp [h]
      · simp only [Bool.not_eq_true] at h
        simp [h]
    · simp only [Bool.not_eq_true] at hc
      simp only [hc, Bool.false_eq_true, if_false]
      exact ih _ _

theorem normGapsGo_id (cs : List (List Char)) :
    ∀ la hp, gapsOKGo la hp cs = true → normGapsGo la hp cs = cs := by
  induction cs with
  | nil => intro _ _ _; rfl
  | cons c rest ih =>
    intro la hp h
    rw [gapsOKGo] at h
    rw [normGapsGo_cons]
    by_cases hc : isWsChunk c = true
    · simp only [hc, if_true, Bool.and_eq_true] at h ⊢
      by_cases hra : (la || rightActiveIn rest) = true
      · have hcts : c = twoSp := by
          have := h.1
          rw [hra] at this
          simpa using this
        simp [hra, hcts, ih false true h.2]
      · simp only [Bool.not_eq_true] at hra
        simp [hra, ih false true h.2]
    · simp only [Bool.not_eq_true] at hc
      simp only [hc, Bool.false_eq_true, if_false] at h ⊢
      simp [ih _ _ h]

theorem altOK_normGapsGo (cs : List (List Char)) :
    ∀ la hp, altOK cs = true → altOK (normGapsGo la hp cs) = true := by
  induction cs with
  | nil => intro _ _ _; rfl
  | cons c rest ih =>
    intro la hp h
    rw [normGapsGo_cons]
    cases rest with
    | nil =>
      show altOK [_] = true
      exact chunkOK_normHead la c [] (altOK_chunkOK h)
    | cons d rest' =>
      have hEq := normGapsGo_cons (if isWsChunk c then false else (isAndOr c && hp)) true d rest'
      rw [hEq, altOK_cons2]
      simp only [Bool.and_eq_true]
      rw [altOK_cons2, Bool.and_eq_true, Bool.and_eq_true] at h
      refine ⟨⟨chunkOK_normHead la c (d :: rest') h.1.1, ?_⟩, ?_⟩
      · rw [isWsChunk_normHead, isWsChunk_normHead]
        exact h.1.2
      · rw [← hEq]
        exact ih _ true h.2

theorem gapsOKStr_boolNormStr (s : List Char) : gapsOKStr (boolNormStr s) = true := by
  unfold gapsOKStr boolNormStr
  rw [chunks_joinL _ (altOK_normGapsGo _ _ _ (altOK_chunks s))]
  exact gapsOK_normGapsGo _ _ _

theorem boolNormStr_id_of_gapsOK {s : List Char} (h : gapsOKStr s = true) :
    boolNormStr s = s := by
  unfold boolNormStr
  rw [normGapsGo_id _ _ _ h, joinL_chunks]

theorem filter_joinL (p : Char → Bool) (cs : List (List Char)) :
    (joinL cs).filter p = joinL (cs.map (fun c => c.filter p)) := by
  induction cs with
  | nil => rfl
  | cons c t ih => simp [joinL, List.filter_append, ih]

theorem wsChunk_filter_nonWs {c : List Char} (hok : chunkOK c = true)
    (hws : isWsChunk c = true) : c.filter (fun x => !x.isWhitespace) = [] := by
  rcases c with _ | ⟨a, as⟩
  · rfl
  · simp only [isWsChunk] at hws
    simp only [chunkOK, List.all_eq_true] at hok
    rw [List.filter_eq_nil_iff]
    intro x hx
    rcases List.mem_cons.mp hx with rfl | hxs
    · simp [hws]
    · have := hok x hxs
      simp only [sameClass, beq_iff_eq] at this
      simp [← this, hws]

theorem map_filter_normGapsGo (cs : List (List Char)) :
    ∀ la hp, altOK cs = true →
      (normGapsGo la hp cs).map (fun c => c.filter (fun x => !x.isWhitespace))
        = cs.map (fun c => c.filter (fun x => !x.isWhitespace)) := by
  induction cs with
  | nil => intro _ _ _; rfl
  | cons c rest ih =>
    intro la hp h
    rw [normGapsGo_cons]
    simp only [List.map_cons]
    refine congrArg₂ _ ?_ (ih _ true (altOK_tail h))
    by_cases h1 : isWsChunk c = true
    · by_cases h2 : (la || rightActiveIn rest) = true
      · simp only [h1, if_true, h2]
        rw [wsChunk_filter_nonWs chunkOK_twoSp isWsChunk_twoSp,
          wsChunk_filter_nonWs (altOK_chunkOK h) h1]
      · simp only [Bool.not_eq_true] at h2
        simp [h1, h2]
    · simp only [Bool.not_eq_true] at h1
      simp [h1]

theorem boolNormStr_filter (s : List Char) :
    (boolNormStr s).filter (fun x => !x.isWhitespace) = s.filter (fun x => !x.isWhitespace) := by
  unfold boolNormStr
  rw [filter_joinL, map_filter_normGapsGo _ _ _ (altOK_chunks s), ← filter_joinL, joinL_chunks]

theorem eqConv_bang (r : List Char) : eqConv ('!' :: '=' :: r) = '!' :: '=' :: eqConv r := rfl

theorem eqConv_lte (r : List Char) : eqConv ('<' :: '=' :: r) = '<' :: '=' :: eqConv r := rfl

theorem eqConv_gte (r : List Char) : eqConv ('>' :: '=' :: r) = '>' :: '=' :: eqConv r := rfl

theorem eqConv_eq2 (r : List Char) : eqConv ('=' :: '=' :: r) = '=' :: '=' :: eqConv r := rfl

theorem eqConv_sep {B : List Char} (hB : B.head? ≠ some '=') :
    eqConv ('=' :: B) = '=' :: '=' :: eqConv B := by
  rcases B with _ | ⟨b, B'⟩
  · rfl
  · have hb : b ≠ '=' := by
      intro hEq
      exact hB (by rw [hEq]; rfl)
    conv_lhs => rw [eqConv.eq_def]
    split <;> simp_all [eq_comm]

theorem eqConv_cons {a : Char} {r : List Char}
    (hpair : ¬ ((a = '!' ∨ a = '<' ∨ a = '>') ∧ r.head? = some '='))
    (ha : a ≠ '=') :
    eqConv (a :: r) = a :: eqConv r := by
  rcases r with _ | ⟨b, r'⟩
  · conv_lhs => rw [eqConv.eq_def]
    split <;> simp_all [eq_comm]
  · conv_lhs => rw [eqConv.eq_def]
    split <;> simp_all [eq_comm]

theorem eqConv_filter (s : List Char) :
    (eqConv s).filter (fun c => !(c == '=')) = s.filter (fun c => !(c == '=')) := by
  induction s using eqConv.induct <;> simp_all [eqConv]

theorem eqConv_append (A B : List Char)
    (hB : B.head?.all (fun c => !(c == '=')) = true) :
    A.getLast?.all (fun c => !(c == '=') && !(c == '!') && !(c == '<') && !(c == '>')) = true →
    eqConv (A ++ '=' :: B) = eqConv A ++ '=' :: '=' :: eqConv B := by
  have hBne : B.head? ≠ some '=' := by
    intro hEq
    rw [hEq] at hB
    simp [Option.all] at hB
  induction A using eqConv.induct with
  | case1 =>
    intro _
    rw [List.nil_append, eqConv_sep hBne]
    rfl
  | case2 r ih =>
    rcases r with _ | ⟨x, r'⟩
    · intro hA
      exact absurd hA (by decide)
    · intro hA
      rw [List.getLast?_cons_cons, List.getLast?_cons_cons] at hA
      simp only [List.cons_append] at ih ⊢
      rw [eqConv_bang, eqConv_bang, ih hA]
      simp [List.cons_append]
  | case3 r ih =>
    rcases r with _ | ⟨x, r'⟩
    · intro hA
      exact absurd hA (by decide)
    · intro hA
      rw [List.getLast?_cons_cons, List.getLast?_cons_cons] at hA
      simp only [List.cons_append] at ih ⊢
      rw [eqConv_lte, eqConv_lte, ih hA]
      simp [List.cons_append]
  | case4 r ih =>
    rcases r with _ | ⟨x, r'⟩
    · intro hA
      exact absurd hA (by decide)
    · intro hA
      rw [List.getLast?_cons_cons, List.getLast?_cons_cons] at hA
      simp only [List.cons_append] at ih ⊢
      rw [eqConv_gte, eqConv_gte, ih hA]
      simp [List.cons_append]
  | case5 r ih =>
    rcases r with _ | ⟨x, r'⟩
    · intro hA
      exact absurd hA (by decide)
    · intro hA
      rw [List.getLast?_cons_cons, List.getLast?_cons_cons] at hA
      simp only [List.cons_append] at ih ⊢
      rw [eqConv_eq2, eqConv_eq2, ih hA]
      simp [List.cons_append]
  | case6 r hs ih =>
    rcases r with _ | ⟨x, r'⟩
    · intro hA
      exact absurd hA (by decide)
    · intro hA
      have hx : x ≠ '=' := by
        intro hEq
        exact hs r' (by rw [hEq])
      rw [List.getLast?_cons_cons] at hA
      simp only [List.cons_append] at ih ⊢
      rw [eqConv_sep (by simp [hx]), eqConv_sep (by simp [hx]), ih hA]
      simp [List.cons_append]
  | case7 c r hs1 hs2 hs3 hs4 hs5 ih =>
    have hc : c ≠ '=' := fun hEq => hs5 hEq
    rcases r with _ | ⟨x, r'⟩
    · intro hA
      rw [List.getLast?_singleton] at hA
      simp only [Option.all_some, Bool.and_eq_true, Bool.not_eq_true', beq_eq_false_iff_ne] at hA
      simp only [List.cons_append, List.nil_append]
      rw [eqConv_cons (by
            rintro ⟨hg, -⟩
            rcases hg with rfl | rfl | rfl
            · exact hA.1.1.2 rfl
            · exact hA.1.2 rfl
            · exact hA.2 rfl) hc,
        eqConv_sep hBne,
        eqConv_cons (by simp) hc]
      simp [eqConv]
    · intro hA
      have hpair : ¬ ((c = '!' ∨ c = '<' ∨ c = '>') ∧ (x :: r').head? = some '=') := by
        rintro ⟨hg, hx⟩
        simp only [List.head?_cons, Option.some.injEq] at hx
        rcases hg with rfl | rfl | rfl
        · exact hs1 r' rfl (by rw [hx])
        · exact hs2 r' rfl (by rw [hx])
        · exact hs3 r' rfl (by rw [hx])
      rw [List.getLast?_cons_cons] at hA
      simp only [List.cons_append] at ih ⊢
      rw [eqConv_cons (by
            rintro ⟨hg, hx⟩
            simp only [List.cons_append, List.head?_cons, Option.some.injEq] at hx
            exact hpair ⟨hg, by rw [hx]; rfl⟩) hc,
        eqConv_cons hpair hc, ih hA]
      simp [List.cons_append]

theorem stripRefDelims_dollar (f : List Char) :
    stripRefDelims ('$' :: '{' :: (f ++ ['}'])) = f := by
  have h1 : ('$' :: '{' :: (f ++ ['}'])).getLast? = some '}' := by
    rw [show '$' :: '{' :: (f ++ ['}']) = ('$' :: '{' :: f) ++ ['}'] by simp]
    exact List.getLast?_concat _
  have h2 : (("$\x7b").data).isPrefixOf ('$' :: '{' :: (f ++ ['}'])) = true := by
    simp [List.isPrefixOf]
  rw [stripRefDelims]
  simp only [h2, if_true, h1, if_pos]
  simp [List.dropLast_concat]

theorem stripRefDelims_current (f : List Char) :
    stripRefDelims (curMarker ++ f) = f := by
  have hd : (("$\x7b").data).isPrefixOf (curMarker ++ f) = false := by
    simp [curMarker, List.isPrefixOf]
  have hp : curMarker.isPrefixOf (curMarker ++ f) = true :=
    List.isPrefixOf_iff_prefix.mpr (List.prefix_append _ _)
  rw [stripRefDelims]
  simp only [hd, Bool.false_eq_true, if_false, hp, if_true]
  rw [show (13 : Nat) = curMarker.length from rfl, List.drop_left]

theorem effRows_cons_eff {l : List Char} (ls : List (List Char))
    (h1 : trimBoth l ≠ []) (h2 : (rowParts l).length ≥ 3) :
    effRows (l :: ls) = rowParts l :: effRows ls := by
  simp [effRows, List.filterMap_cons, h1, h2]

theorem effRows_cons_ineff {l : List Char} (ls : List (List Char))
    (h : ¬ (trimBoth l ≠ [] ∧ (rowParts l).length ≥ 3)) :
    effRows (l :: ls) = effRows ls := by
  simp only [effRows, List.filterMap_cons, if_neg h]

theorem procLine_ineff {multi : Bool} {st : ChoiceState} {l : List Char}
    (h : ¬ (trimBoth l ≠ [] ∧ (rowParts l).length ≥ 3)) :
    procLine multi st l = st := by
  rw [procLine]
  by_cases h1 : trimBoth l = []
  · simp [h1]
  · have h2 : (rowParts l).length < 3 := by
      rcases not_and_or.mp h with hc | hc
      · exact absurd h1 (by simpa using hc)
      · omega
    simp [h1, h2, Nat.not_le.mpr h2]

theorem leadSeg_cons_Q {p : List (List Char)} (es : List (List (List Char)))
    (h : isQRow p = true) : leadSeg (p :: es) = [] := by
  simp [leadSeg, List.takeWhile_cons, h]

theorem leadSeg_cons_nonQ {p : List (List Char)} (es : List (List (List Char)))
    (h : isQRow p = false) : leadSeg (p :: es) = p :: leadSeg es := by
  simp [leadSeg, List.takeWhile_cons, h]

theorem lastSegOf_cons_Q {q : List Char} {p : List (List Char)} (es : List (List (List Char)))
    (hp : isQRow p = true) (hn : p.getD 2 [] = q) :
    lastSegOf q (p :: es) = some ((lastSegOf q es).getD (leadSeg es)) := by
  rw [lastSegOf]
  simp only [hp, hn, beq_self_eq_true, Bool.and_self, if_true]
  cases lastSegOf q es <;> simp [leadSeg, Option.getD]

theorem lastSegOf_cons_ne {q : List Char} {p : List (List Char)} (es : List (List (List Char)))
    (h : ¬ (isQRow p = true ∧ p.getD 2 [] = q)) :
    lastSegOf q (p :: es) = lastSegOf q es := by
  rw [lastSegOf]
  have hg : (isQRow p && p.getD 2 [] == q) = false := by
    by_cases h1 : isQRow p = true
    · have h2 : p.getD 2 [] ≠ q := fun hc => h ⟨h1, hc⟩
      simp only [h1, Bool.true_and, beq_eq_false_iff_ne, ne_eq]
      simpa using h2
    · have h1' : isQRow p = false := by
        cases hb : isQRow p
        · rfl
        · exact absurd hb h1
      simp [h1']
  simp only [hg, Bool.false_eq_true, if_false]

theorem aCodes_cons (p : List (List Char)) (rest : List (List (List Char))) :
    aCodes (p :: rest) =
      if p.getD 0 [] = ("A").data then p.getD 2 [] :: aCodes rest else aCodes rest := by
  simp only [aCodes, List.filter_cons]
  by_cases h : p.getD 0 [] = ("A").data
  · rw [if_pos (by simpa using h), if_pos h, List.map_cons]
  · rw [if_neg (by simpa using h), if_neg h]

theorem sqCount_cons (p : List (List Char)) (rest : List (List (List Char))) :
    sqCount (p :: rest) =
      if p.getD 0 [] = ("SQ").data then sqCount rest + 1 else sqCount rest := by
  simp only [sqCount, List.filter_cons]
  by_cases h : p.getD 0 [] = ("SQ").data
  · rw [if_pos (by simpa using h), if_pos h, List.length_cons]
  · rw [if_neg (by simpa using h), if_neg h]

theorem contFold_count (multi : Bool) (seg : List (List (List Char))) :
    ∀ n cs, contFold multi (some n) cs seg =
      some (n + (if multi then dcount cs (aCodes seg) else (aCodes seg).length) + sqCount seg) := by
  have hAS : ¬ ((("A").data : List Char) = ("SQ").data) := by decide
  induction seg with
  | nil =>
    intro n cs
    simp [contFold, aCodes, dcount, sqCount]
  | cons p rest ih =>
    intro n cs
    rw [contFold, aCodes_cons, sqCount_cons]
    by_cases hA : p.getD 0 [] = ("A").data
    · by_cases hm : multi = true
      · by_cases hmem : p.getD 2 [] ∈ cs
        · subst hm
          simp only [hA, if_true, hmem, ih, hAS, if_false, dcount, if_pos]
        · subst hm
          simp only [hA, if_true, hmem, ih, hAS, if_false, dcount, if_pos, Option.getD_some,
            Option.some.injEq]
          omega
      · have hm' : multi = false := by simpa using hm
        subst hm'
        simp only [hA, if_true, Bool.false_eq_true, if_false, hAS, ih, Option.getD_some,
          List.length_cons, Option.some.injEq]
        ring
    · by_cases hSQ : p.getD 0 [] = ("SQ").data
      · have hSA : ¬ ((("SQ").data : List Char) = ("A").data) := by decide
        simp only [hA, if_false, hSQ, if_true, hSA, ih, Option.getD_some, Option.some.injEq]
        ring
      · simp only [hA, if_false, hSQ, ih]

theorem card_insert_eq_card_erase_add_one {α : Type} [DecidableEq α] (a : α) (s : Finset α) :
    (insert a s).card = (s.erase a).card + 1 := by
  by_cases h : a ∈ s
  · rw [Finset.insert_eq_self.mpr h]
    exact (Finset.card_erase_add_one h).symm
  · rw [Finset.erase_eq_of_not_mem h, Finset.card_insert_of_not_mem h]

theorem dcount_eq_card (l : List (List Char)) :
    ∀ cs, dcount cs l = (l.toFinset \ cs.toFinset).card := by
  induction l with
  | nil => intro cs; simp [dcount]
  | cons a t ih =>
    intro cs
    rw [dcount]
    by_cases h : a ∈ cs
    · rw [if_pos h, ih, List.toFinset_cons,
        Finset.insert_sdiff_of_mem _ (List.mem_toFinset.mpr h)]
    · rw [if_neg h, ih (a :: cs), List.toFinset_cons, List.toFinset_cons,
        Finset.sdiff_insert,
        Finset.insert_sdiff_of_not_mem _ (by simpa using h),
        card_insert_eq_card_erase_add_one]

theorem dcount_nil_eq_dedup (l : List (List Char)) : dcount [] l = l.dedup.length := by
  rw [dcount_eq_card]
  simp [List.card_toFinset]

theorem bumpCount_same (q : List Char) (cn : List Char → Option Nat) :
    bumpCount q cn q = some ((cn q).getD 0 + 1) := by
  simp [bumpCount]

theorem bumpCount_other {k q : List Char} (cn : List Char → Option Nat) (hk : k ≠ q) :
    bumpCount q cn k = cn k := by
  simp [bumpCount, hk]

theorem procLine_eff (multi : Bool) (st : ChoiceState) (l : List Char)
    (h1 : trimBoth l ≠ []) (h2 : (rowParts l).length ≥ 3) :
    procLine multi st l =
      (if (rowParts l).getD 0 [] = ("Q").data then
        { curQ := some ((rowParts l).getD 2 []),
          counts := fun k => if k = (rowParts l).getD 2 [] then some 0 else st.counts k,
          codes := fun k => if k = (rowParts l).getD 2 [] then [] else st.codes k }
      else if (rowParts l).getD 0 [] = ("A").data then
        (match st.curQ with
        | some cq =>
          if cq = [] then st
          else if multi then
            (if (rowParts l).getD 2 [] ∈ st.codes cq then st
             else { st with
                    counts := bumpCount cq st.counts,
                    codes := fun k =>
                      if k = cq then (rowParts l).getD 2 [] :: st.codes cq else st.codes k })
          else { st with counts := bumpCount cq st.counts }
        | none => st)
      else if (rowParts l).getD 0 [] = ("SQ").data then
        (match st.curQ with
        | some cq => if cq = [] then st else { st with counts := bumpCount cq st.counts }
        | none => st)
      else st) := by
  rw [procLine, if_neg h1, if_neg (by omega : ¬ (rowParts l).length < 3)]

theorem procLines_counts (multi : Bool) (q : List Char) (hq : q ≠ []) :
    ∀ (ls : List (List Char)) (st : ChoiceState),
      (procLines multi st ls).counts q =
        (match lastSegOf q (effRows ls) with
        | some seg => contFold multi (some 0) [] seg
        | none =>
          (match st.curQ with
          | some cq =>
            if cq = q then contFold multi (st.counts q) (st.codes q) (leadSeg (effRows ls))
            else st.counts q
          | none => st.counts q)) := by
  intro ls
  induction ls with
  | nil =>
    intro st
    show st.counts q = _
    simp only [effRows, List.filterMap_nil, lastSegOf, leadSeg, List.takeWhile_nil, contFold]
    cases st.curQ with
    | none => rfl
    | some cq =>
      by_cases hc : cq = q <;> simp [hc]
  | cons l ls ih =>
    intro st
    show (procLines multi (procLine multi st l) ls).counts q = _
    rw [ih (procLine multi st l)]
    by_cases heff : trimBoth l ≠ [] ∧ (rowParts l).length ≥ 3
    · obtain ⟨h1, h2⟩ := heff
      rw [effRows_cons_eff _ h1 h2, procLine_eff multi st l h1 h2]
      by_cases hQ : (rowParts l)[0]?.getD [] = ['Q']
      · rw [if_pos (by simpa using hQ)]
        have hQrow : isQRow (rowParts l) = true := by
          simp [isQRow, hQ]
        by_cases hname : (rowParts l)[2]?.getD [] = q
        · rw [lastSegOf_cons_Q _ hQrow (by simpa using hname)]
          cases hseg : lastSegOf q (effRows ls) with
          | some seg => simp [hseg]
          | none => simp [hseg, hname]
        · rw [lastSegOf_cons_ne _ (fun hc => hname (by simpa using hc.2))]
          cases hseg : lastSegOf q (effRows ls) with
          | some seg => simp [hseg]
          | none =>
            have hne : ¬ q = (rowParts l)[2]?.getD [] := fun hc => hname hc.symm
            rw [leadSeg_cons_Q _ hQrow]
            simp only [hseg]
            cases hcq : st.curQ with
            | none => simp [hname, hne]
            | some cq =>
              by_cases hc : cq = q
              · simp [hname, hne, hc, contFold]
              · simp [hname, hne, hc]
      · rw [if_neg (fun hc => hQ (by simpa using hc))]
        have hQrow : isQRow (rowParts l) = false := by
          simp [isQRow, hQ]
        rw [lastSegOf_cons_ne _ (fun hcon => hQ (by simpa [isQRow] using hcon.1)),
          leadSeg_cons_nonQ _ hQrow]
        cases hseg : lastSegOf q (effRows ls) with
        | some seg => simp [hseg]
        | none =>
          simp only [hseg]
          by_cases hA : (rowParts l)[0]?.getD [] = ['A']
          · rw [if_pos (by simpa using hA)]
            cases hcq : st.curQ with
            | none => simp [hcq, contFold, hA]
            | some cq =>
              by_cases hcqe : cq = []
              · subst hcqe
                have hqe : ¬ ([] : List Char) = q := fun hc => hq hc.symm
                simp [hcq, hqe, contFold, hA]
              · by_cases hc : cq = q
                · subst hc
                  rw [contFold, if_pos (by simpa using hA)]
                  by_cases hm : multi = true
                  · subst hm
                    by_cases hmem : (rowParts l)[2]?.getD [] ∈ st.codes cq
                    · simp [hcq, hmem, hcqe]
                    · simp [hcq, hmem, hcqe, bumpCount_same]
                  · have hm2 : multi = false := by simpa using hm
                    subst hm2
                    simp [hcq, hcqe, bumpCount_same]
                · rw [contFold, if_pos (by simpa using hA)]
                  have hqc : q ≠ cq := fun hcon => hc hcon.symm
                  by_cases hm : multi = true
                  · subst hm
                    by_cases hmem : (rowParts l)[2]?.getD [] ∈ st.codes cq
                    · simp [hcq, hmem, hcqe, hc]
                    · simp [hcq, hmem, hcqe, hc, bumpCount_other _ hqc]
                  · have hm2 : multi = false := by simpa using hm
                    subst hm2
                    simp [hcq, hcqe, hc, bumpCount_other _ hqc]
          · by_cases hSQ : (rowParts l)[0]?.getD [] = ['S', 'Q']
            · rw [if_neg (fun hc => hA (by simpa using hc)), if_pos (by simpa using hSQ),
                contFold, if_neg (fun hc => hA (by simpa using hc)),
                if_pos (by simpa using hSQ)]
              cases hcq : st.curQ with
              | none => simp [hcq]
              | some cq =>
                by_cases hcqe : cq = []
                · subst hcqe
                  have hqe : ¬ ([] : List Char) = q := fun hc => hq hc.symm
                  simp [hcq, hqe]
                · by_cases hc : cq = q
                  · subst hc
                    simp [hcq, hcqe, bumpCount_same]
                  · have hqc : q ≠ cq := fun hcon => hc hcon.symm
                    simp [hcq, hcqe, hc, bumpCount_other _ hqc]
            · rw [if_neg (fun hc => hA (by simpa using hc)),
                if_neg (fun hc => hSQ (by simpa using hc))]
              cases hcq : st.curQ with
              | none => simp [hcq]
              | some cq =>
                by_cases hc : cq = q
                · subst hc
                  simp only [hcq, if_true]
                  rw [contFold,
                    if_neg (fun hcon => hA (by simpa using hcon)),
                    if_neg (fun hcon => hSQ (by simpa using hcon))]
                · simp [hcq, hc]
    · rw [procLine_ineff heff, effRows_cons_ineff _ heff]

theorem lineLang_spec {l x : List Char} (h : lineLang l = some x) :
    x.length = 2 ∧
      (((("SL").data).isPrefixOf l ∧ (rowParts l).length ≥ 3
          ∧ trimBoth ((rowParts l).getLast?.getD []) = x)
        ∨ (¬ ((("SL").data).isPrefixOf l = true) ∧ (("Q").data).isPrefixOf l
          ∧ (rowParts l).length ≥ 7 ∧ trimBoth ((rowParts l).getD 6 []) = x)) := by
  unfold lineLang at h
  split_ifs at h with h1 h2 h3 h4 h5 h6
  · obtain rfl : trimBoth ((rowParts l).getLast?.getD []) = x := by
      simpa using h
    exact ⟨h3.2, Or.inl ⟨h1, h2, rfl⟩⟩
  · obtain rfl : trimBoth ((rowParts l).getD 6 []) = x := by
      simpa using h
    exact ⟨h6.2, Or.inr ⟨by simpa using h1, h4, h5, rfl⟩⟩

theorem extract_languages_mem {content x : List Char}
    (hx : x ∈ extract_languages_from_tsv content) :
    ∃ l ∈ tsvLines content, lineLang l = some x := by
  have hperm := List.perm_insertionSort (fun a b : List Char => a ≤ b)
    ((tsvLines content).filterMap lineLang).dedup
  have hx2 : x ∈ ((tsvLines content).filterMap lineLang).dedup :=
    (hperm.mem_iff).mp hx
  have hx3 : x ∈ (tsvLines content).filterMap lineLang := List.mem_dedup.mp hx2
  exact List.mem_filterMap.mp hx3

/-!
Claim theorems.
-/

/-- Claim C1: for input `selected($\x7bconsent\x7d, 'yes') and $\x7bage\x7d >= 18`
with a registry mapping `consent` and `age` to themselves, the pipeline
outputs exactly `(consent == "yes")  and  age >= 18`, and the `selected`
literal is re-quoted to double quotes regardless of the source quote style
(the double-quoted source gives the same output). -/
theorem c1_selected_example :
    xpathToExpressionScript
        [((("consent").data), (("consent").data)), ((("age").data), (("age").data))]
        (("selected($\x7bconsent\x7d, 'yes') and $\x7bage\x7d >= 18").data)
      = (("(consent == \"yes\")  and  age >= 18").data)
    ∧ xpathToExpressionScript
        [((("consent").data), (("consent").data)), ((("age").data), (("age").data))]
        (("selected($\x7bconsent\x7d, \"yes\") and $\x7bage\x7d >= 18").data)
      = (("(consent == \"yes\")  and  age >= 18").data) := by
  constructor <;> decide

/-- Claim C2 counterexample: the pipeline is not idempotent.  On the input
`$\x7b$\x7d\x7ba\x7d` (with an empty registry) delimiter stripping manufactures
a new `$\x7ba\x7d` reference, so a second run changes the output again. -/
theorem c2_idempotence_counterexample :
    xpathToExpressionScript []
        (xpathToExpressionScript [] (("$\x7b$\x7d\x7ba\x7d").data))
      ≠ xpathToExpressionScript [] (("$\x7b$\x7d\x7ba\x7d").data) := by
  decide

/-- Claim C2 (amended): the pipeline is the identity on every string that is
free of residual source-grammar syntax — no `not(`/`if(`/`selected(`
substring, no `current()`-rooted or `$\x7b`-delimited reference, no bare `=`,
and canonical two-space margins around word operators.  (Full idempotence is
refuted by `c2_idempotence_counterexample`: delimiter stripping can
manufacture new reference syntax.) -/
theorem c2_residual_free_fixed_point (reg : FieldReg) (s : List Char)
    (hnot : ¬ ((("not(").data) <:+: s)) (hif : ¬ ((("if(").data) <:+: s))
    (hsel : ¬ ((("selected(").data) <:+: s)) (hcur : ¬ (curMarker <:+: s))
    (hdol : ¬ ((("$\x7b").data) <:+: s))
    (heq : bareEqFree s = true) (hgaps : gapsOKStr s = true) :
    xpathToExpressionScript reg s = s := by
  show xpathToExprF (s.length + 1) reg s = s
  simp only [xpathToExprF]
  rw [convNotIfGen_id _ _ hnot hif, selConv_id _ _ hsel,
    resolveCurrentF_id _ _ hcur, resolveDollarF_id _ _ hdol,
    eqConv_id_of_bareEqFree heq]
  exact boolNormStr_id_of_gapsOK hgaps

/-- Witness for `c2_residual_free_fixed_point` at a concrete pipeline
output. -/
theorem c2_residual_free_fixed_point_witness :
    xpathToExpressionScript [] (("(consent == \"yes\")  and  age >= 18").data)
      = (("(consent == \"yes\")  and  age >= 18").data) :=
  c2_residual_free_fixed_point [] (("(consent == \"yes\")  and  age >= 18").data)
    (by decide) (by decide) (by decide) (by decide) (by decide) (by decide) (by decide)

/-- Claim C3: the operator normalizer rewrites a bare `=` flanked by
non-operator characters to `==` while leaving everything else — in
particular original string-literal quoting — unchanged: the scenario
`not($\x7bconsent\x7d = '')` converts to exactly `not(consent == '')`
(single quotes kept); for every split `A = B` of the input at a bare `=`,
the output is `eqConv A ++ == ++ eqConv B`; and the equality pass never
touches a non-`=` character. -/
theorem c3_operator_equality :
    (xpathToExpressionScript [((("consent").data), (("consent").data))]
        (("not($\x7bconsent\x7d = '')").data)
      = (("not(consent == '')").data))
    ∧ (∀ A B : List Char,
        A.getLast?.all (fun c => !(c == '=') && !(c == '!') && !(c == '<') && !(c == '>')) = true →
        B.head?.all (fun c => !(c == '=')) = true →
        eqConv (A ++ '=' :: B) = eqConv A ++ '=' :: '=' :: eqConv B)
    ∧ (∀ s : List Char,
        (eqConv s).filter (fun c => !(c == '=')) = s.filter (fun c => !(c == '='))) := by
  refine ⟨by decide, fun A B hA hB => eqConv_append A B hB hA, eqConv_filter⟩

/-- Witness for `c3_operator_equality` at a concrete comparison split. -/
theorem c3_operator_equality_witness :
    eqConv ((("consent ").data) ++ '=' :: ((" ''").data))
      = eqConv (("consent ").data) ++ '=' :: '=' :: eqConv ((" ''").data) :=
  c3_operator_equality.2.1 (("consent ").data) ((" ''").data) (by decide) (by decide)

/-- Claim C4: the boolean-spacing example converts exactly as specified, every
pipeline output has canonical two-space margins around its whitespace-flanked
word operators regardless of input spacing, and the spacing pass changes only
whitespace (so parenthesized grouping is preserved). -/
theorem c4_boolean_spacing :
    (xpathToExpressionScript
        [((("age").data), (("age").data)), ((("country").data), (("country").data))]
        (("$\x7bage\x7d >= 18 and ($\x7bcountry\x7d = 'USA' or $\x7bcountry\x7d = 'Canada')").data)
      = (("age >= 18  and  (country == 'USA'  or  country == 'Canada')").data))
    ∧ (∀ (reg : FieldReg) (s : List Char),
        gapsOKStr (xpathToExpressionScript reg s) = true)
    ∧ (∀ s : List Char,
        (boolNormStr s).filter (fun c => !c.isWhitespace)
          = s.filter (fun c => !c.isWhitespace)) := by
  refine ⟨by decide, fun reg s => ?_, boolNormStr_filter⟩
  show gapsOKStr (xpathToExprF (s.length + 1) reg s) = true
  simp only [xpathToExprF]
  exact gapsOKStr_boolNormStr _

/-- Claim C5: permissive degradation — the pipeline is a total function (it
always returns a string), an unregistered `$\x7bunknownfield\x7d` reference is
emitted with only its delimiters stripped, and a `selected(` call with
unbalanced parens is left character-for-character untouched. -/
theorem c5_permissive_degradation :
    (xpathToExpressionScript [((("consent").data), (("consent").data))]
        (("$\x7bunknownfield\x7d = 'x'").data)
      = (("unknownfield == 'x'").data))
    ∧ (xpathToExpressionScript [((("consent").data), (("consent").data))]
        (("selected(consent, 'x'").data)
      = (("selected(consent, 'x'").data)) := by
  constructor <;> decide

/-- Claim C6: for input `if($\x7bage\x7d > 18, true(), false())` the pipeline
returns exactly `if(age > 18, true(), false())` — the call syntax is kept,
each argument is converted independently, and the boolean literal calls pass
through unchanged. -/
theorem c6_if_example :
    xpathToExpressionScript [((("age").data), (("age").data))]
        (("if($\x7bage\x7d > 18, true(), false())").data)
      = (("if(age > 18, true(), false())").data) := by
  decide

/-- Claim C7: for every field registered as `f ↦ v`, the Field Reference
Resolver sends the absolute reference `$\x7bf\x7d` and the
`current()`-rooted relative reference `current()/../f` to the same sanitized
identifier `v`. -/
theorem c7_relative_absolute_invariance (reg : FieldReg) (f v : List Char)
    (h : lookupReg reg f = some v) :
    resolveRefToken reg ('$' :: '{' :: (f ++ ['}'])) = v
    ∧ resolveRefToken reg (curMarker ++ f) = v := by
  constructor
  · rw [resolveRefToken, stripRefDelims_dollar, resolveName, h]
    rfl
  · rw [resolveRefToken, stripRefDelims_current, resolveName, h]
    rfl

/-- Witness for `c7_relative_absolute_invariance` on a one-entry registry. -/
theorem c7_relative_absolute_invariance_witness :
    resolveRefToken [((("age").data), (("age_s").data))]
        ('$' :: '{' :: ((("age").data) ++ ['}'])) = (("age_s").data)
    ∧ resolveRefToken [((("age").data), (("age_s").data))]
        (curMarker ++ (("age").data)) = (("age_s").data) :=
  c7_relative_absolute_invariance [((("age").data), (("age_s").data))]
    (("age").data) (("age_s").data) (by decide)

/-- Claim C8 counterexample: on a multilingual content whose question row has
an empty name, the Python truthiness guard `and current_question` disables
counting, so the parsed count (0) differs from the claimed distinct-codes-
plus-SQ count of the question's rows (1). -/
theorem c8_choice_count_counterexample :
    isMultilingual (("S\ta\tb\tc\td\te\ten\nS\ta\tb\tc\td\te\tde\nQ\tT\t\nA\tT\tc1").data)
        = true
    ∧ parse_tsv_choices
        (("S\ta\tb\tc\td\te\ten\nS\ta\tb\tc\td\te\tde\nQ\tT\t\nA\tT\tc1").data) []
        = some 0
    ∧ (lastSegOf []
          (effLines (("S\ta\tb\tc\td\te\ten\nS\ta\tb\tc\td\te\tde\nQ\tT\t\nA\tT\tc1").data))).map
          (segChoiceCount true)
        = some 1 := by
  refine ⟨by decide, by decide, by decide⟩

/-- Claim C8 (amended): for every question with a NONEMPTY name, the count
reported by `parse_tsv_choices` is the per-segment choice count of the rows
after the question's last `Q` row — distinct answer codes when the content is
multilingual, all `A` rows otherwise, plus all `SQ` rows.  (For an empty
question name the Python truthiness guard `and current_question` disables
counting, refuting the unrestricted claim: `c8_choice_count_counterexample`.) -/
theorem c8_choice_count (content : List Char) (q : List Char) (hq : q ≠ []) :
    parse_tsv_choices content q =
      (lastSegOf q (effLines content)).map (segChoiceCount (isMultilingual content)) := by
  show (procLines (isMultilingual content) initChoiceState (tsvLines content)).counts q = _
  rw [procLines_counts (isMultilingual content) q hq (tsvLines content) initChoiceState]
  cases hseg : lastSegOf q (effRows (tsvLines content)) with
  | none => simp [effLines, hseg, initChoiceState]
  | some seg =>
    simp only [effLines, hseg, Option.map_some']
    rw [contFold_count, dcount_nil_eq_dedup, segChoiceCount]
    simp

/-- Witness for `c8_choice_count` on a content with duplicate answer codes
and a subquestion row. -/
theorem c8_choice_count_witness :
    parse_tsv_choices
        (("S\ta\tb\tc\td\te\ten\nS\ta\tb\tc\td\te\tde\nQ\tT\tq1\nA\tT\tc1\nA\tT\tc1\nA\tT\tc2\nSQ\tT\ts1").data)
        (("q1").data)
      = (lastSegOf (("q1").data)
          (effLines (("S\ta\tb\tc\td\te\ten\nS\ta\tb\tc\td\te\tde\nQ\tT\tq1\nA\tT\tc1\nA\tT\tc1\nA\tT\tc2\nSQ\tT\ts1").data))).map
          (segChoiceCount (isMultilingual
            (("S\ta\tb\tc\td\te\ten\nS\ta\tb\tc\td\te\tde\nQ\tT\tq1\nA\tT\tc1\nA\tT\tc1\nA\tT\tc2\nSQ\tT\ts1").data))) :=
  c8_choice_count
    (("S\ta\tb\tc\td\te\ten\nS\ta\tb\tc\td\te\tde\nQ\tT\tq1\nA\tT\tc1\nA\tT\tc1\nA\tT\tc2\nSQ\tT\ts1").data)
    (("q1").data) (by decide)

/-- Claim C9: `verify_tsv_contains_text` raises (returns an error) if and
only if at least one expected string is not a substring of the file's
content; the content is only read (it is an immutable input of the model). -/
theorem c9_verify_contains_iff (content : List Char) (expected : List (List Char)) :
    (∃ e, verify_tsv_contains_text content expected = Except.error e)
      ↔ ∃ t ∈ expected, ¬ (t <:+: content) := by
  constructor
  · rintro ⟨e, he⟩
    by_cases h : expected.filter (fun t => !pyContains content t) = []
    · rw [verify_tsv_contains_text, if_neg (fun hc => hc h)] at he
      exact absurd he (by simp)
    · obtain ⟨t, ht⟩ := List.exists_mem_of_ne_nil _ h
      have hm := List.mem_filter.mp ht
      exact ⟨t, hm.1, by simpa [pyContains] using hm.2⟩
  · rintro ⟨t, htmem, hnot⟩
    have hft : t ∈ expected.filter (fun t => !pyContains content t) :=
      List.mem_filter.mpr ⟨htmem, by simpa [pyContains] using hnot⟩
    have h : expected.filter (fun t => !pyContains content t) ≠ [] := by
      intro hc
      rw [hc] at hft
      exact absurd hft (by simp)
    rw [verify_tsv_contains_text, if_pos h]
    exact ⟨_, rfl⟩

/-- Claim C10 counterexample: the code tests `line.startswith('Q')`, not that
the row's first tab-separated field is `Q`, so a line whose first field is
`QQ` still contributes a language code — `fr` is returned although no row
with first field exactly `SL` or `Q` carries it. -/
theorem c10_languages_counterexample :
    extract_languages_from_tsv (("QQ\ta\tb\tc\td\te\tfr").data) = [(("fr").data)]
    ∧ strictRowSource (("QQ\ta\tb\tc\td\te\tfr").data) (("fr").data) = false := by
  constructor <;> decide

/-- Claim C10 (amended): `extract_languages_from_tsv` returns a duplicate-free
ascending list of 2-character strings, each collected from the last column of
a line starting with `SL` or the 7th column of a line starting with `Q`
(prefix matching, as the code implements it — equality of the first
tab-separated field is refuted by `c10_languages_counterexample`). -/
theorem c10_languages (content : List Char) :
    (extract_languages_from_tsv content).Sorted (· ≤ ·)
    ∧ (extract_languages_from_tsv content).Nodup
    ∧ (∀ x ∈ extract_languages_from_tsv content, x.length = 2)
    ∧ (∀ x ∈ extract_languages_from_tsv content, lineSource content x = true) := by
  have hperm := List.perm_insertionSort (fun a b : List Char => a ≤ b)
    ((tsvLines content).filterMap lineLang).dedup
  refine ⟨List.sorted_insertionSort _ _, ?_, ?_, ?_⟩
  · exact (hperm.nodup_iff).mpr (List.nodup_dedup _)
  · intro x hx
    obtain ⟨l, _, hl⟩ := extract_languages_mem hx
    exact (lineLang_spec hl).1
  · intro x hx
    obtain ⟨l, hlm, hl⟩ := extract_languages_mem hx
    rw [lineSource, List.any_eq_true]
    refine ⟨l, hlm, ?_⟩
    rcases (lineLang_spec hl).2 with ⟨hSL, hlen, hlast⟩ | ⟨hnSL, hQ, hlen, hcol⟩
    · simp [hSL, hlen, hlast]
    · have hcol' : trimBoth ((rowParts l)[6]?.getD []) = x := by
        simpa [List.getD_eq_getElem?_getD] using hcol
      simp [hnSL, hQ, hlen, hcol']

/-- Witness for `c10_languages`: a concrete content with one `SL` and one `Q`
language line. -/
theorem c10_languages_witness :
    (("de").data) ∈ extract_languages_from_tsv
        (("SL\tsurveyls_title\t1\tTitle\t\tde\nQ\tT\tq1\tx\ty\tz\ten").data)
    ∧ ((("de").data).length = 2
      ∧ lineSource (("SL\tsurveyls_title\t1\tTitle\t\tde\nQ\tT\tq1\tx\ty\tz\ten").data)
          (("de").data) = true) :=
  ⟨by decide,
    (c10_languages (("SL\tsurveyls_title\t1\tTitle\t\tde\nQ\tT\tq1\tx\ty\tz\ten").data)).2.2.1
        (("de").data) (by decide),
    (c10_languages (("SL\tsurveyls_title\t1\tTitle\t\tde\nQ\tT\tq1\tx\ty\tz\ten").data)).2.2.2
        (("de").data) (by decide)⟩
